import Mathlib

/-!
Verification of the node/connection graph, render pipeline, tools and
physics of the nodal-portfolio repository, against its natural-language
specification.

The JavaScript sources are shallowly embedded:

* a JS `Map` is an insertion-ordered association list with unique keys
  (`mapSet` updates in place keeping the original position, `mapDelete`
  removes the entry, `mapGet` looks a key up);
* JS numbers are embedded as exact rationals (`ℚ`) where the claims are
  about the algebraic structure of an update, and as `JSNum` (rationals
  extended with infinities and NaN, following IEEE-754 special-value
  rules) where a claim is about division by zero;
* stateful methods become functions from the state to the new state paired
  with the list of events emitted during the call;
* a `try`/`catch` around a tool call becomes an outcome datatype:
  the `thrown` outcome is handled exactly where the source catches it.
-/

namespace NodalPortfolio

/-! ## JS `Map` model: insertion-ordered association list -/

variable {κ ν : Type} [DecidableEq κ]

/-- JS `Map.prototype.set`: if the key is present, replace its value in
place (the entry keeps its insertion position); otherwise append the new
entry at the end. -/
def mapSet : List (κ × ν) → κ → ν → List (κ × ν)
  | [], k, v => [(k, v)]
  | (k₀, v₀) :: rest, k, v =>
    if k₀ = k then (k, v) :: rest else (k₀, v₀) :: mapSet rest k v

/-- JS `Map.prototype.delete`: remove the (unique) entry with the key. -/
def mapDelete : List (κ × ν) → κ → List (κ × ν)
  | [], _ => []
  | (k₀, v₀) :: rest, k =>
    if k₀ = k then rest else (k₀, v₀) :: mapDelete rest k

/-- JS `Map.prototype.get`: value of the first entry with the key. -/
def mapGet : List (κ × ν) → κ → Option ν
  | [], _ => none
  | (k₀, v₀) :: rest, k => if k₀ = k then some v₀ else mapGet rest k

/-- The keys of the map, in insertion order. -/
def mapKeys (m : List (κ × ν)) : List κ := m.map Prod.fst

/-- A lookup misses exactly when the key is absent (needed below to
justify termination of the backward graph walk, so stated ahead of the
remaining map lemmas). -/
theorem mapGet_eq_none_iff (m : List (κ × ν)) (k : κ) :
    mapGet m k = none ↔ k ∉ mapKeys m := by
  induction m with
  | nil => simp [mapGet, mapKeys]
  | cons e rest ih =>
    obtain ⟨k₀, v₀⟩ := e
    by_cases h : k₀ = k
    · subst h
      simp [mapGet, mapKeys]
    · simp only [mapGet, if_neg h, mapKeys, List.map_cons, List.mem_cons, ih,
        mapKeys]
      constructor
      · intro hk hc
        rcases hc with hc | hc
        · exact h hc.symm
        · exact hk hc
      · intro hk
        exact fun hc => hk (Or.inr hc)

/-- A successful lookup means the key is present. -/
theorem mem_keys_of_mapGet_eq_some {m : List (κ × ν)} {k : κ} {v : ν}
    (h : mapGet m k = some v) : k ∈ mapKeys m := by
  by_contra hk
  rw [← mapGet_eq_none_iff] at hk
  rw [h] at hk
  exact Option.noConfusion hk

/-- Measure for the backward walk: each step visits a previously
unvisited key of `parents`, so the unvisited keys strictly decrease. -/
theorem filter_cons_visited_lt {α : Type} [DecidableEq α] {l : List α}
    {x : α} {vis : List α} (hx : x ∈ l) (hnv : x ∉ vis) :
    (l.filter fun y => decide (y ∉ x :: vis)).length <
      (l.filter fun y => decide (y ∉ vis)).length := by
  induction l with
  | nil => simp at hx
  | cons a l ih =>
    by_cases hax : a = x
    · subst hax
      have h₁ : (decide (a ∉ a :: vis)) = false := by simp
      have h₂ : (decide (a ∉ vis)) = true := by simpa using hnv
      simp only [List.filter_cons, h₁, h₂]
      have hle : (l.filter fun y => decide (y ∉ a :: vis)).length ≤
          (l.filter fun y => decide (y ∉ vis)).length := by
        apply List.Sublist.length_le
        apply List.monotone_filter_right
        intro b hb
        simp at hb ⊢
        exact hb.2
      exact Nat.lt_succ_of_le hle
    · have hx₂ : x ∈ l := by
        rcases List.mem_cons.mp hx with h | h
        · exact absurd h.symm hax
        · exact h
      by_cases ha : a ∈ vis
      · have h₁ : (decide (a ∉ x :: vis)) = false := by
          simp
          exact fun _ => ha
        have h₂ : (decide (a ∉ vis)) = false := by simpa using ha
        simp only [List.filter_cons, h₁, h₂]
        exact ih hx₂
      · have h₁ : (decide (a ∉ x :: vis)) = true := by
          simp
          exact ⟨hax, ha⟩
        have h₂ : (decide (a ∉ vis)) = true := by simpa using ha
        simp only [List.filter_cons, h₁, h₂]
        exact Nat.succ_lt_succ (ih hx₂)

/-! ## StateManager (js/utils/StateManager.js)

`StateManager` holds `nodes : Map`, `connections : Map`, `selectedItem`
(the `manifest` field and the network-fetching `loadManifest` are outside
the embedding; no claim touches them).  Each mutating method returns the
new state together with the list of events it emits, in emission order.
`ν` is the type of node instances, `ι` the type of catalog items. -/

/-- An event emitted by a `StateManager` method, with its payload
(`nodeRemoved` carries `this.state.nodes.get(id)`, which is `undefined`
when the id is absent, hence `Option ν`). -/
inductive SMEvent (ν ι : Type) where
  | nodeAdded (id : String) (node : ν)
  | nodeRemoved (id : String) (node : Option ν)
  | connectionChanged
  | itemSelected (item : ι)
deriving DecidableEq

/-- The state held by `StateManager`: `nodes` (id → node instance),
`connections` (fromId → toId), and the current selection. -/
structure StateManager (ν ι : Type) where
  nodes : List (String × ν)
  connections : List (String × String)
  selectedItem : Option ι
deriving DecidableEq

namespace StateManager

variable {ν₁ ι₁ : Type}

/-- `addNode(id, node)`: `this.state.nodes.set(id, node)` then emit
`nodeAdded`.  Note the source performs no duplicate-id check: `Map.set`
overwrites an existing registration. -/
def addNode (s : StateManager ν₁ ι₁) (id : String) (node : ν₁) :
    StateManager ν₁ ι₁ × List (SMEvent ν₁ ι₁) :=
  ({ s with nodes := mapSet s.nodes id node }, [SMEvent.nodeAdded id node])

/-- The `connections.forEach` loop of `removeNode`: delete every entry
whose key or value is `id`.  (The loop only ever deletes the entry
currently under iteration, which is safe in JS `Map.forEach`, so the loop
is exactly this filter.) -/
def removeConnectionsOf (id : String) :
    List (String × String) → List (String × String)
  | [] => []
  | (fromId, toId) :: rest =>
    if fromId = id ∨ toId = id then removeConnectionsOf id rest
    else (fromId, toId) :: removeConnectionsOf id rest

/-- `removeNode(id)`: look the node up, delete it from `nodes`, delete
every connection involving it, then emit `nodeRemoved` (and nothing
else). -/
def removeNode (s : StateManager ν₁ ι₁) (id : String) :
    StateManager ν₁ ι₁ × List (SMEvent ν₁ ι₁) :=
  let node := mapGet s.nodes id
  ({ s with
      nodes := mapDelete s.nodes id,
      connections := removeConnectionsOf id s.connections },
   [SMEvent.nodeRemoved id node])

/-- `connectNodes(fromId, toId)`: `connections.set` then emit
`connectionChanged`. -/
def connectNodes (s : StateManager ν₁ ι₁) (fromId toId : String) :
    StateManager ν₁ ι₁ × List (SMEvent ν₁ ι₁) :=
  ({ s with connections := mapSet s.connections fromId toId },
   [SMEvent.connectionChanged])

/-- `disconnectNodes(fromId)`: `connections.delete` then emit
`connectionChanged`. -/
def disconnectNodes (s : StateManager ν₁ ι₁) (fromId : String) :
    StateManager ν₁ ι₁ × List (SMEvent ν₁ ι₁) :=
  ({ s with connections := mapDelete s.connections fromId },
   [SMEvent.connectionChanged])

/-- `selectItem(item)`: record the selection, emit `itemSelected`. -/
def selectItem (s : StateManager ν₁ ι₁) (item : ι₁) :
    StateManager ν₁ ι₁ × List (SMEvent ν₁ ι₁) :=
  ({ s with selectedItem := some item }, [SMEvent.itemSelected item])

/-- `getNode(id)`. -/
def getNode (s : StateManager ν₁ ι₁) (id : String) : Option ν₁ :=
  mapGet s.nodes id

/-- `getConnections()`: `Array.from(this.state.connections.entries())`,
the `(fromId, toId)` pairs in `Map` insertion order. -/
def getConnections (s : StateManager ν₁ ι₁) : List (String × String) :=
  s.connections

end StateManager

/-! ## RenderPipeline (js/core/RenderPipeline.js) -/

/-- The `parents` map built at the top of `getToolsInOrder`:
`connections.forEach(([fromId, toId]) => parents.set(toId, fromId))`.
Because `Map.set` overwrites, the surviving parent of a destination is
the source of the *last* enumerated edge into it. -/
def buildParents (connections : List (String × String)) :
    List (String × String) :=
  connections.foldl (fun m e => mapSet m e.2 e.1) []

/-- The `while` loop of `getToolsInOrder`: starting from the viewer node,
walk the `parents` map backward, pushing each parent that hosts a
registered tool onto the *front* of the accumulator (`unshift`), until no
backward edge exists or a node is revisited (the cycle guard).
Termination: every iteration adds a fresh key of `parents` to `visited`. -/
def walk {τ : Type} (parents : List (String × String))
    (toolMap : List (String × τ)) (currentId : String)
    (visited : List String) (orderedTools : List τ) : List τ :=
  match hp : mapGet parents currentId with
  | none => orderedTools
  | some parentId =>
    if hv : currentId ∈ visited then orderedTools
    else
      walk parents toolMap parentId (currentId :: visited)
        (match mapGet toolMap parentId with
         | some t => t :: orderedTools
         | none => orderedTools)
termination_by ((mapKeys parents).filter fun y => decide (y ∉ visited)).length
decreasing_by
  exact filter_cons_visited_lt (mem_keys_of_mapGet_eq_some hp) hv

/-- The `RenderPipeline` state the claims depend on: the viewer node id,
the backing `StateManager`, and `toolMap : Map // nodeId -> tool`. -/
structure RenderPipeline (τ ν ι : Type) where
  viewerId : String
  stateManager : StateManager ν ι
  toolMap : List (String × τ)

namespace RenderPipeline

variable {τ₁ ν₁ ι₁ : Type}

/-- `addTool(tool, nodeId)`: `this.toolMap.set(nodeId, tool)` (the
`render()` it triggers is a display side effect). -/
def addTool (rp : RenderPipeline τ₁ ν₁ ι₁) (tool : τ₁) (nodeId : String) :
    RenderPipeline τ₁ ν₁ ι₁ :=
  { rp with toolMap := mapSet rp.toolMap nodeId tool }

/-- `getToolsInOrder()`: build the destination→source `parents` map from
`getConnections()`, then walk backward from the viewer node. -/
def getToolsInOrder (rp : RenderPipeline τ₁ ν₁ ι₁) : List τ₁ :=
  walk (buildParents rp.stateManager.getConnections) rp.toolMap
    rp.viewerId [] []

end RenderPipeline

/-! ## The tool-application loop of `RenderPipeline.render()`

The per-frame drawing surface is abstracted as a type `γ` with the two
operations the loop uses, `read` (`ctx.getImageData`) and `put`
(`ctx.putImageData`); pixel buffers are a type `β`.  One
`await tool.process(imageData, ctx, canvas)` call either returns a value
(`null` meaning "I painted the surface myself") or raises; either way it
may have painted the surface, so the outcome carries the surface after
the call. -/

/-- Outcome of one `tool.process` call: the returned value (`none` is the
JS `null` managed-compositing sentinel) together with the surface after
the call, or an exception with the surface as the tool left it. -/
inductive ProcOutcome (β γ : Type) where
  | ok (result : Option β) (surface : γ)
  | thrown (surface : γ)
deriving DecidableEq

/-- A tool as the render loop sees it: the truthiness of `tool.process`
and the behaviour of calling it. -/
structure ToolM (β γ : Type) where
  hasProcess : Bool
  process : β → γ → ProcOutcome β γ

/-- The `for` loop over `orderedTools` in `render()` (the part of the
method from the `getToolsInOrder` call to just before the final
`putImageData`): each tool with a `process` runs inside `try`/`catch`; a
thrown exception keeps the previous `currentImageData` and moves on; a
`null` result re-reads the surface; a returned buffer is adopted and, if
the tool is not the last, written back to the surface. -/
def runToolChain {β γ : Type} (read : γ → β) (put : β → γ → γ) :
    List (ToolM β γ) → β → γ → β × γ
  | [], buf, surface => (buf, surface)
  | tool :: rest, buf, surface =>
    if tool.hasProcess then
      match tool.process buf surface with
      | ProcOutcome.thrown surface₂ => runToolChain read put rest buf surface₂
      | ProcOutcome.ok none surface₂ =>
        runToolChain read put rest (read surface₂) surface₂
      | ProcOutcome.ok (some result) surface₂ =>
        if rest.isEmpty then runToolChain read put rest result surface₂
        else runToolChain read put rest result (put result surface₂)
    else runToolChain read put rest buf surface

/-- The tail of `render()`: run the tool chain, then `putImageData` the
final buffer onto the surface for display.  Returns the displayed buffer
and the final surface. -/
def renderComposite {β γ : Type} (read : γ → β) (put : β → γ → γ)
    (tools : List (ToolM β γ)) (buf : β) (surface : γ) : β × γ :=
  let r := runToolChain read put tools buf surface
  (r.1, put r.1 r.2)

/-! ## InvertTool (js/tools/InvertTool.js)

An `ImageData` is a width, a height and a flat `Uint8ClampedArray` of
RGBA bytes; the embedding groups the flat array into pixels (the source
loop walks it with stride 4).  `ctx.createImageData(imageData)` allocates
an output of the same dimensions; every byte of the input is an integer
in `0..255`. -/

/-- One RGBA pixel: four bytes of a `Uint8ClampedArray`. -/
structure RGBA where
  r : ℕ
  g : ℕ
  b : ℕ
  a : ℕ
deriving DecidableEq

/-- A `Uint8ClampedArray` holds integers in `0..255`. -/
def RGBA.Valid (p : RGBA) : Prop :=
  p.r ≤ 255 ∧ p.g ≤ 255 ∧ p.b ≤ 255 ∧ p.a ≤ 255

instance (p : RGBA) : Decidable p.Valid := by
  unfold RGBA.Valid
  infer_instance

/-- An `ImageData` value. -/
structure ImageDataM where
  width : ℕ
  height : ℕ
  data : List RGBA
deriving DecidableEq

/-- Every pixel of the buffer is a valid byte quadruple. -/
def ImageDataM.Valid (img : ImageDataM) : Prop :=
  ∀ p ∈ img.data, p.Valid

instance (img : ImageDataM) : Decidable img.Valid := by
  unfold ImageDataM.Valid
  infer_instance

namespace InvertTool

/-- `InvertTool.process`: allocate a same-sized output and set
`output[i] = 255 - input[i]` on the R, G, B channels and
`output[i+3] = input[i+3]` on alpha, for every stride-4 index. -/
def process (imageData : ImageDataM) : ImageDataM :=
  { width := imageData.width
    height := imageData.height
    data := imageData.data.map fun p =>
      { r := 255 - p.r, g := 255 - p.g, b := 255 - p.b, a := p.a } }

end InvertTool

/-! ## Verlet physics (js/physics/VerletPhysics.js)

`Point` is embedded twice, at two number models:

* over exact rationals (`Point`), for the claim about the algebraic
  structure of the integration step — every operation there is `+`, `-`,
  `*`, for which `ℚ` is the exact idealisation of JS numbers;
* over `JSNum` (`JSPoint` / `JSStick`), rationals extended with the IEEE
  special values `Infinity`, `-Infinity`, `NaN`, for the claim about the
  division by zero in `Stick.update`. -/

/-- A 2-vector with `x`/`y` fields (the shape of the `gravity` argument). -/
structure Vec2Q where
  x : ℚ
  y : ℚ
deriving DecidableEq

/-- `Point`: current position, previous position, pinned flag, visual
radius (constructor default `6`). -/
structure Point where
  x : ℚ
  y : ℚ
  oldX : ℚ
  oldY : ℚ
  pinned : Bool
  radius : ℚ := 6
deriving DecidableEq

namespace Point

/-- `Point.update(dt, gravity)`: a pinned point returns unchanged;
otherwise capture `vx = x - oldX`, `vy = y - oldY`, store the current
position into `oldX`/`oldY`, and advance
`x += vx + gravity.x * dt * dt` (same on `y`). -/
def update (p : Point) (dt : ℚ) (gravity : Vec2Q) : Point :=
  if p.pinned then p
  else
    let vx := p.x - p.oldX
    let vy := p.y - p.oldY
    { p with
        oldX := p.x
        oldY := p.y
        x := p.x + (vx + gravity.x * dt * dt)
        y := p.y + (vy + gravity.y * dt * dt) }

end Point

/-- A JS number: a finite value (exact rational), an infinity, or NaN.
Signed zero is not distinguished (every zero is `+0`, which matches the
values arising in the claims). -/
inductive JSNum where
  | num (q : ℚ)
  | inf
  | negInf
  | nan
deriving DecidableEq

namespace JSNum

/-- IEEE-754 addition on the special values; exact on finite values. -/
def add : JSNum → JSNum → JSNum
  | nan, _ => nan
  | _, nan => nan
  | inf, negInf => nan
  | negInf, inf => nan
  | inf, _ => inf
  | _, inf => inf
  | negInf, _ => negInf
  | _, negInf => negInf
  | num a, num b => num (a + b)

/-- IEEE-754 negation. -/
def neg : JSNum → JSNum
  | num q => num (-q)
  | inf => negInf
  | negInf => inf
  | nan => nan

/-- IEEE-754 subtraction: `a - b = a + (-b)`. -/
def sub (a b : JSNum) : JSNum := add a (neg b)

/-- IEEE-754 multiplication: `0 * ±Infinity = NaN`, infinities follow the
sign rules, NaN propagates; exact on finite values. -/
def mul : JSNum → JSNum → JSNum
  | nan, _ => nan
  | _, nan => nan
  | num a, num b => num (a * b)
  | num a, inf => if a = 0 then nan else if 0 < a then inf else negInf
  | inf, num b => if b = 0 then nan else if 0 < b then inf else negInf
  | num a, negInf => if a = 0 then nan else if 0 < a then negInf else inf
  | negInf, num b => if b = 0 then nan else if 0 < b then negInf else inf
  | inf, inf => inf
  | inf, negInf => negInf
  | negInf, inf => negInf
  | negInf, negInf => inf

/-- IEEE-754 division: a nonzero finite value divided by (positive) zero
is a signed infinity, `0 / 0 = NaN`, `±Infinity / ±Infinity = NaN`,
finite `/ ±Infinity = 0`, NaN propagates; exact on finite values. -/
def div : JSNum → JSNum → JSNum
  | nan, _ => nan
  | _, nan => nan
  | num a, num b =>
    if b = 0 then (if a = 0 then nan else if 0 < a then inf else negInf)
    else num (a / b)
  | num _, inf => num 0
  | num _, negInf => num 0
  | inf, num b => if 0 ≤ b then inf else negInf
  | negInf, num b => if 0 ≤ b then negInf else inf
  | inf, inf => nan
  | inf, negInf => nan
  | negInf, inf => nan
  | negInf, negInf => nan

/-- Exact rational square root of a perfect rational square (numerator
and denominator both perfect squares); on other nonnegative rationals a
floor-style approximation — the real square root is irrational there, so
no exact embedding exists, and no theorem below evaluates this case. -/
def sqrtQ (q : ℚ) : ℚ :=
  (Nat.sqrt q.num.toNat : ℚ) / (Nat.sqrt q.den : ℚ)

/-- `Math.sqrt`: NaN on negative arguments and NaN, `Infinity` on
`Infinity`; `sqrtQ` on nonnegative finite values (exact at `0` and at
every perfect square). -/
def sqrt : JSNum → JSNum
  | nan => nan
  | negInf => nan
  | inf => inf
  | num q => if q < 0 then nan else num (sqrtQ q)

end JSNum

/-- `Point` at the IEEE-style number model. -/
structure JSPoint where
  x : JSNum
  y : JSNum
  oldX : JSNum
  oldY : JSNum
  pinned : Bool
deriving DecidableEq

/-- `Stick`: two endpoints, rest length and stiffness (constructor
default `0.5`). -/
structure JSStick where
  p1 : JSPoint
  p2 : JSPoint
  length : JSNum
  stiffness : JSNum
deriving DecidableEq

namespace JSStick

/-- `Stick.update()`, exactly as written — note there is no guard on
`dist` before the division `diff / dist`:
`dx = p2.x - p1.x`, `dy = p2.y - p1.y`, `dist = sqrt(dx*dx + dy*dy)`,
`diff = length - dist`, `percent = (diff / dist) * stiffness`,
`offsetX = dx * percent * 0.5`, `offsetY = dy * percent * 0.5`, then each
unpinned endpoint is moved by the offset (`p1` by `-=`, `p2` by `+=`). -/
def update (s : JSStick) : JSStick :=
  let dx := JSNum.sub s.p2.x s.p1.x
  let dy := JSNum.sub s.p2.y s.p1.y
  let dist := JSNum.sqrt (JSNum.add (JSNum.mul dx dx) (JSNum.mul dy dy))
  let diff := JSNum.sub s.length dist
  let percent := JSNum.mul (JSNum.div diff dist) s.stiffness
  let offsetX := JSNum.mul (JSNum.mul dx percent) (JSNum.num (1 / 2))
  let offsetY := JSNum.mul (JSNum.mul dy percent) (JSNum.num (1 / 2))
  let q1 :=
    if s.p1.pinned then s.p1
    else { s.p1 with
            x := JSNum.sub s.p1.x offsetX
            y := JSNum.sub s.p1.y offsetY }
  let q2 :=
    if s.p2.pinned then s.p2
    else { s.p2 with
            x := JSNum.add s.p2.x offsetX
            y := JSNum.add s.p2.y offsetY }
  { s with p1 := q1, p2 := q2 }

end JSStick

/-! ## Concrete states and figures used by the claim theorems -/

/-- An unpinned particle sitting at `(50, 50)` at rest. -/
def degPoint : JSPoint :=
  { x := JSNum.num 50, y := JSNum.num 50, oldX := JSNum.num 50,
    oldY := JSNum.num 50, pinned := false }

/-- A constraint whose two endpoints coincide: rest length `10`,
stiffness `0.5` (the constructor default), current distance `0`. -/
def degStick : JSStick :=
  { p1 := degPoint, p2 := degPoint, length := JSNum.num 10,
    stiffness := JSNum.num (1 / 2) }

/-- A graph store holding a node registered under id `"a"` (node
instances and catalog items are just numbers here). -/
def dupState : StateManager ℕ ℕ := ⟨[("a", 1)], [], none⟩

/-- A graph store with nodes `"x"`, `"v"` and the edge `x → v`, so that
removing `"x"` removes an edge. -/
def c7State : StateManager ℕ ℕ := ⟨[("x", 1), ("v", 2)], [("x", "v")], none⟩

/-- The connection chain `work → toolA → toolB → viewer`, as built by the
graph-edit operations from an empty store (`connectNodes` three times in
placement order). -/
def chainState (ν ι : Type) : StateManager ν ι :=
  ((((StateManager.mk [] [] none).connectNodes "work" "toolA").1.connectNodes
      "toolA" "toolB").1.connectNodes "toolB" "viewer").1

/-- A fan-in graph: `work → branchA → viewer` and `branchB → viewer`
(two edges into the viewer; the `branchB` edge is enumerated last). -/
def fanInState (ν ι : Type) : StateManager ν ι :=
  ((((StateManager.mk [] [] none).connectNodes "work" "branchA").1.connectNodes
      "branchA" "viewer").1.connectNodes "branchB" "viewer").1

/-- A graph store with edges `a → b` and `x → b`, to exercise the removal
cascade on a node that appears as a source. -/
def c6State : StateManager ℕ ℕ := ⟨[], [("a", "b"), ("x", "b")], none⟩

/-- A graph store with no nodes and no edges. -/
def emptyState : StateManager ℕ ℕ := ⟨[], [], none⟩

/-- The 2×1 image of the end-to-end scenario in the spec: pixels
`(10,20,30,255)` and `(200,100,50,255)`. -/
def scenarioImage : ImageDataM :=
  ⟨2, 1, [⟨10, 20, 30, 255⟩, ⟨200, 100, 50, 255⟩]⟩

/-- A tool whose `process` always raises (leaving the surface as it
found it). -/
def throwingTool (β γ : Type) : ToolM β γ :=
  ⟨true, fun _ c => ProcOutcome.thrown c⟩

/-- A transforming tool over `ℕ` buffers: returns the successor of the
incoming buffer. -/
def incTool : ToolM ℕ ℕ :=
  ⟨true, fun b c => ProcOutcome.ok (some (b + 1)) c⟩

/-! ## Supporting lemmas about the `Map` model -/

theorem mapGet_mapSet_self (m : List (κ × ν)) (k : κ) (v : ν) :
    mapGet (mapSet m k v) k = some v := by
  induction m with
  | nil => simp [mapSet, mapGet]
  | cons e rest ih =>
    obtain ⟨k₀, v₀⟩ := e
    by_cases h : k₀ = k <;> simp [mapSet, mapGet, h, ih]

theorem mapGet_mapSet_ne (m : List (κ × ν)) {k q : κ} (v : ν) (h : q ≠ k) :
    mapGet (mapSet m k v) q = mapGet m q := by
  induction m with
  | nil =>
    have : ¬ k = q := fun hc => h hc.symm
    simp [mapSet, mapGet, this]
  | cons e rest ih =>
    obtain ⟨k₀, v₀⟩ := e
    by_cases h₀ : k₀ = k
    · subst h₀
      have h₁ : ¬ k₀ = q := fun hq => h hq.symm
      simp [mapSet, mapGet, h₁]
    · by_cases hq : k₀ = q <;> simp [mapSet, mapGet, h₀, hq, ih, h]

theorem mapGet_mapSet (m : List (κ × ν)) (k q : κ) (v : ν) :
    mapGet (mapSet m k v) q = if q = k then some v else mapGet m q := by
  by_cases h : q = k
  · subst h
    rw [if_pos rfl, mapGet_mapSet_self]
  · rw [if_neg h, mapGet_mapSet_ne m v h]

theorem mem_of_mapGet_eq_some {m : List (κ × ν)} {k : κ} {v : ν}
    (h : mapGet m k = some v) : (k, v) ∈ m := by
  induction m with
  | nil => simp [mapGet] at h
  | cons e rest ih =>
    obtain ⟨k₀, v₀⟩ := e
    by_cases hk : k₀ = k
    · subst hk
      simp [mapGet] at h
      simp [h]
    · simp [mapGet, hk] at h
      exact List.mem_cons_of_mem _ (ih h)

theorem mapGet_eq_some_of_mem {m : List (κ × ν)} {k : κ} {v : ν}
    (hnd : (mapKeys m).Nodup) (h : (k, v) ∈ m) : mapGet m k = some v := by
  induction m with
  | nil => simp at h
  | cons e rest ih =>
    obtain ⟨k₀, v₀⟩ := e
    rw [mapKeys, List.map_cons, List.nodup_cons] at hnd
    rcases List.mem_cons.mp h with h₁ | h₂
    · injection h₁ with hk hv
      subst hk
      subst hv
      simp [mapGet]
    · have hk : ¬ k₀ = k := by
        intro hkk
        subst hkk
        exact hnd.1 (List.mem_map.mpr ⟨(k₀, v), h₂, rfl⟩)
      simp [mapGet, hk, ih hnd.2 h₂]

theorem mapKeys_mapSet (m : List (κ × ν)) (k : κ) (v : ν) :
    mapKeys (mapSet m k v) =
      if k ∈ mapKeys m then mapKeys m else mapKeys m ++ [k] := by
  induction m with
  | nil => simp [mapSet, mapKeys]
  | cons e rest ih =>
    obtain ⟨k₀, v₀⟩ := e
    by_cases h : k₀ = k
    · subst h
      simp [mapSet, mapKeys]
    · have e1 : mapSet ((k₀, v₀) :: rest) k v = (k₀, v₀) :: mapSet rest k v := by
        simp [mapSet, h]
      have e2 : mapKeys ((k₀, v₀) :: mapSet rest k v)
          = k₀ :: mapKeys (mapSet rest k v) := rfl
      have e3 : mapKeys ((k₀, v₀) :: rest) = k₀ :: mapKeys rest := rfl
      rw [e1, e2, e3, ih]
      have hiff : k ∈ k₀ :: mapKeys rest ↔ k ∈ mapKeys rest := by
        constructor
        · intro hc
          rcases List.mem_cons.mp hc with hc | hc
          · exact absurd hc.symm h
          · exact hc
        · exact fun hc => List.mem_cons_of_mem _ hc
      by_cases hmem : k ∈ mapKeys rest
      · rw [if_pos hmem, if_pos (hiff.mpr hmem)]
      · rw [if_neg hmem, if_neg (fun hc => hmem (hiff.mp hc)), List.cons_append]

theorem keys_mapSet_nodup (m : List (κ × ν)) (k : κ) (v : ν)
    (hnd : (mapKeys m).Nodup) : (mapKeys (mapSet m k v)).Nodup := by
  rw [mapKeys_mapSet]
  by_cases hmem : k ∈ mapKeys m
  · simpa [hmem] using hnd
  · simp [hmem, List.nodup_append, hnd]

theorem mapDelete_sublist (m : List (κ × ν)) (k : κ) :
    (mapDelete m k).Sublist m := by
  induction m with
  | nil => simp [mapDelete]
  | cons e rest ih =>
    obtain ⟨k₀, v₀⟩ := e
    by_cases h : k₀ = k
    · simp only [mapDelete, if_pos h]
      exact List.sublist_cons_self _ _
    · simp only [mapDelete, if_neg h]
      exact List.Sublist.cons₂ _ ih

theorem keys_mapDelete_nodup (m : List (κ × ν)) (k : κ)
    (hnd : (mapKeys m).Nodup) : (mapKeys (mapDelete m k)).Nodup :=
  List.Nodup.sublist ((mapDelete_sublist m k).map Prod.fst) hnd

/-- On maps with duplicate-free keys, lookup does not depend on entry
order: permuted registries answer every lookup alike. -/
theorem mapGet_perm {m m₂ : List (κ × ν)}
    (hperm : m.Perm m₂) (hnd : (mapKeys m).Nodup) (k : κ) :
    mapGet m k = mapGet m₂ k := by
  have hnd₂ : (mapKeys m₂).Nodup :=
    ((hperm.map Prod.fst).nodup_iff).mp hnd
  cases h : mapGet m k with
  | none =>
    rw [mapGet_eq_none_iff] at h
    have h₂ : k ∉ mapKeys m₂ := fun hc =>
      h ((hperm.map Prod.fst).mem_iff.mpr hc)
    rw [← mapGet_eq_none_iff] at h₂
    rw [h₂]
  | some v =>
    have hmem : (k, v) ∈ m₂ := hperm.mem_iff.mp (mem_of_mapGet_eq_some h)
    rw [mapGet_eq_some_of_mem hnd₂ hmem]

/-- The `parents` lookup built by `getToolsInOrder` resolves a
destination to the source of the last enumerated edge into it. -/
theorem mapGet_foldl_mapSet (conns : List (String × String))
    (acc : List (String × String)) (t : String) :
    mapGet (conns.foldl (fun m e => mapSet m e.2 e.1) acc) t =
      match conns.reverse.find? (fun e => decide (e.2 = t)) with
      | some e => some e.1
      | none => mapGet acc t := by
  induction conns generalizing acc with
  | nil => simp
  | cons e conns ih =>
    obtain ⟨f, d⟩ := e
    rw [List.foldl_cons, ih (mapSet acc d f), List.reverse_cons,
      List.find?_append]
    cases hfind : conns.reverse.find? (fun e => decide (e.2 = t)) with
    | some e₂ => simp
    | none =>
      by_cases ht : d = t
      · subst ht
        simp [mapGet_mapSet_self]
      · have hne : (decide ((f, d).2 = t)) = false := by
          simp
          exact ht
        simp [hne, mapGet_mapSet_ne acc f (fun hc => ht hc.symm)]

/-- Everything the removal cascade keeps is an original edge not touching
the removed id. -/
theorem mem_removeConnectionsOf {id : String} {l : List (String × String)}
    {e : String × String} (he : e ∈ StateManager.removeConnectionsOf id l) :
    e ∈ l ∧ e.1 ≠ id ∧ e.2 ≠ id := by
  induction l with
  | nil => simp [StateManager.removeConnectionsOf] at he
  | cons p rest ih =>
    obtain ⟨f, t⟩ := p
    by_cases h : f = id ∨ t = id
    · rw [StateManager.removeConnectionsOf, if_pos h] at he
      obtain ⟨hmem, hrest⟩ := ih he
      exact ⟨List.mem_cons_of_mem _ hmem, hrest⟩
    · rw [StateManager.removeConnectionsOf, if_neg h] at he
      rcases List.mem_cons.mp he with h₁ | h₂
      · subst h₁
        push_neg at h
        exact ⟨List.mem_cons_self _ _, h.1, h.2⟩
      · obtain ⟨hmem, hrest⟩ := ih h₂
        exact ⟨List.mem_cons_of_mem _ hmem, hrest⟩

/-- The removal cascade only deletes entries. -/
theorem removeConnectionsOf_sublist (id : String)
    (l : List (String × String)) :
    (StateManager.removeConnectionsOf id l).Sublist l := by
  induction l with
  | nil => simp [StateManager.removeConnectionsOf]
  | cons p rest ih =>
    obtain ⟨f, t⟩ := p
    by_cases h : f = id ∨ t = id
    · rw [StateManager.removeConnectionsOf, if_pos h]
      exact ih.cons _
    · rw [StateManager.removeConnectionsOf, if_neg h]
      exact ih.cons₂ _

/-! ## Supporting lemmas about the backward walk -/

theorem walk_eq_none {τ : Type} {parents : List (String × String)}
    (tm : List (String × τ)) {cur : String} (vis : List String) (acc : List τ)
    (hp : mapGet parents cur = none) : walk parents tm cur vis acc = acc := by
  rw [walk]
  split
  · rfl
  · rename_i parentId heq
    rw [hp] at heq
    exact Option.noConfusion heq

theorem walk_eq_visited {τ : Type} {parents : List (String × String)}
    (tm : List (String × τ)) {cur : String} {vis : List String} (acc : List τ)
    {parentId : String} (hp : mapGet parents cur = some parentId)
    (hv : cur ∈ vis) : walk parents tm cur vis acc = acc := by
  rw [walk]
  split
  · rfl
  · rw [dif_pos hv]

theorem walk_eq_step {τ : Type} {parents : List (String × String)}
    (tm : List (String × τ)) {cur : String} {vis : List String} (acc : List τ)
    {parentId : String} (hp : mapGet parents cur = some parentId)
    (hv : cur ∉ vis) :
    walk parents tm cur vis acc =
      walk parents tm parentId (cur :: vis)
        (match mapGet tm parentId with
         | some t => t :: acc
         | none => acc) := by
  rw [walk]
  split
  · rename_i heq
    rw [hp] at heq
    exact Option.noConfusion heq
  · rename_i pid heq
    rw [hp] at heq
    injection heq with h
    subst h
    rw [dif_neg hv]

/-- The backward walk consults the tool registry only through key lookup,
so two registries that answer every lookup alike produce the same
resolved order. -/
theorem walk_congr {τ : Type} (parents : List (String × String))
    (tm tm₂ : List (String × τ)) (hget : ∀ k, mapGet tm k = mapGet tm₂ k)
    (cur : String) (vis : List String) (acc : List τ) :
    walk parents tm cur vis acc = walk parents tm₂ cur vis acc := by
  induction cur, vis, acc using walk.induct parents tm with
  | case1 cur vis acc hp =>
    rw [walk_eq_none tm vis acc hp, walk_eq_none tm₂ vis acc hp]
  | case2 cur vis acc parentId hp hv =>
    rw [walk_eq_visited tm acc hp hv, walk_eq_visited tm₂ acc hp hv]
  | case3 cur vis acc parentId hp hv ih =>
    rw [walk_eq_step tm acc hp hv, walk_eq_step tm₂ acc hp hv,
      ← hget parentId]
    exact ih

/-! ## The claims -/

/-- C2: the specification requires `Stick.update` to guard the
zero-distance case, skipping the correction and producing no NaN.  The
source has no such guard: for `degStick`, whose endpoints coincide (and
whose rest length is `10`), `dist = 0`, `percent = (10 / 0) * 0.5 =
Infinity`, the offsets are `0 * Infinity = NaN`, and both unpinned
endpoints' coordinates become NaN — the code violates the claim. -/
theorem stick_update_zero_distance_yields_nan :
    (JSStick.update degStick).p1.x = JSNum.nan ∧
    (JSStick.update degStick).p1.y = JSNum.nan ∧
    (JSStick.update degStick).p2.x = JSNum.nan ∧
    (JSStick.update degStick).p2.y = JSNum.nan := by
  refine ⟨?_, ?_, ?_, ?_⟩ <;>
    simp [JSStick.update, degStick, degPoint, JSNum.sub, JSNum.add, JSNum.neg,
      JSNum.mul, JSNum.div, JSNum.sqrt, JSNum.sqrtQ]

/-- C3 counterexample: `addNode` on the id `"a"`, already registered with
node `1`, does not fail with a `DuplicateIdError` and does not leave the
existing registration unchanged: it overwrites the node under `"a"` with
`2` and emits `nodeAdded`. -/
theorem addNode_duplicate_not_rejected :
    mapGet (dupState.addNode "a" 2).1.nodes "a" = some 2 ∧
    mapGet dupState.nodes "a" = some 1 ∧
    some (2 : ℕ) ≠ some 1 ∧
    (dupState.addNode "a" 2).2 = [SMEvent.nodeAdded "a" 2] := by
  refine ⟨rfl, rfl, by decide, rfl⟩

/-- C3 (amended): calling `addNode` with an id already present raises no
error; it overwrites the registration under that id (JS `Map.set`
semantics), emits `nodeAdded`, and leaves every other node, the key set
and the connections unchanged. -/
theorem addNode_duplicate_overwrites {ν ι : Type} (s : StateManager ν ι)
    (id : String) (n : ν) (hid : id ∈ mapKeys s.nodes) :
    mapGet (s.addNode id n).1.nodes id = some n ∧
    mapKeys (s.addNode id n).1.nodes = mapKeys s.nodes ∧
    (∀ q, q ≠ id → mapGet (s.addNode id n).1.nodes q = mapGet s.nodes q) ∧
    (s.addNode id n).1.connections = s.connections ∧
    (s.addNode id n).2 = [SMEvent.nodeAdded id n] := by
  refine ⟨mapGet_mapSet_self s.nodes id n, ?_, ?_, rfl, rfl⟩
  · show mapKeys (mapSet s.nodes id n) = mapKeys s.nodes
    rw [mapKeys_mapSet, if_pos hid]
  · intro q hq
    exact mapGet_mapSet_ne s.nodes n hq

/-- Witness for C3 (amended), at the concrete store `dupState`. -/
theorem addNode_duplicate_overwrites_witness :
    "a" ∈ mapKeys dupState.nodes ∧
    mapGet (dupState.addNode "a" 2).1.nodes "a" = some 2 := by
  have h : "a" ∈ mapKeys dupState.nodes := by
    simp [dupState, mapKeys]
  exact ⟨h, (addNode_duplicate_overwrites dupState "a" 2 h).1⟩

/-- C7 counterexample: on `c7State` the node `"x"` has an incident edge
`x → v`, and `removeNode("x")` does delete that edge — yet the emitted
events are exactly `[nodeRemoved]`: no `connectionChanged` follows, so
the claimed emission sequence does not happen. -/
theorem removeNode_no_connectionChanged :
    c7State.connections = [("x", "v")] ∧
    (c7State.removeNode "x").1.connections = [] ∧
    (c7State.removeNode "x").2 = [SMEvent.nodeRemoved "x" (some 1)] ∧
    SMEvent.connectionChanged ∉ (c7State.removeNode "x").2 := by
  refine ⟨rfl, rfl, rfl, by decide⟩

/-- C7 (amended): `removeNode` emits exactly one event, `nodeRemoved`
with the removed id and the node that was registered under it; it never
emits `connectionChanged`, even when incident edges were removed. -/
theorem removeNode_emits_only_nodeRemoved {ν ι : Type}
    (s : StateManager ν ι) (id : String) :
    (s.removeNode id).2 = [SMEvent.nodeRemoved id (mapGet s.nodes id)] ∧
    SMEvent.connectionChanged ∉ (s.removeNode id).2 := by
  constructor
  · rfl
  · intro hc
    rw [show (s.removeNode id).2
        = [SMEvent.nodeRemoved id (mapGet s.nodes id)] from rfl] at hc
    exact SMEvent.noConfusion (List.mem_singleton.mp hc)

/-- C9: one integration step on an unpinned particle sets the position to
`position + (position − previousPosition) + gravity · dt²` on each axis
and the previous position to the old current position; a pinned particle
is left entirely unchanged. -/
theorem point_update_verlet_integration (p : Point) (dt : ℚ) (g : Vec2Q) :
    (p.pinned = false →
      (p.update dt g).x = p.x + (p.x - p.oldX) + g.x * dt ^ 2 ∧
      (p.update dt g).y = p.y + (p.y - p.oldY) + g.y * dt ^ 2 ∧
      (p.update dt g).oldX = p.x ∧
      (p.update dt g).oldY = p.y ∧
      (p.update dt g).pinned = p.pinned ∧
      (p.update dt g).radius = p.radius) ∧
    (p.pinned = true → p.update dt g = p) := by
  constructor
  · intro hpin
    refine ⟨?_, ?_, ?_, ?_, ?_, ?_⟩ <;> simp [Point.update, hpin] <;> ring
  · intro hpin
    simp [Point.update, hpin]

/-- Witness for C9, at a concrete unpinned particle and a concrete pinned
particle. -/
theorem point_update_verlet_integration_witness :
    ((Point.mk 3 4 1 2 false 6).pinned = false ∧
      ((Point.mk 3 4 1 2 false 6).update 1 ⟨0, 10⟩).x
        = 3 + (3 - 1) + 0 * 1 ^ 2) ∧
    ((Point.mk 3 4 1 2 true 6).pinned = true ∧
      (Point.mk 3 4 1 2 true 6).update 1 ⟨0, 10⟩ = Point.mk 3 4 1 2 true 6) :=
  ⟨⟨rfl, ((point_update_verlet_integration (Point.mk 3 4 1 2 false 6) 1
      ⟨0, 10⟩).1 rfl).1⟩,
   ⟨rfl, (point_update_verlet_integration (Point.mk 3 4 1 2 true 6) 1
      ⟨0, 10⟩).2 rfl⟩⟩

/-- C5: the edge map is single-valued per source — after
`connect(a, b)` then `connect(a, c)` the listed connections contain
`(a, c)` and not `(a, b)`, and every store operation preserves the
invariant that each source id has at most one outgoing edge
(duplicate-free keys of the connection map). -/
theorem edge_map_single_valued {ν ι : Type} :
    (∀ (s : StateManager ν ι) (a b c : String), b ≠ c →
      (mapKeys s.connections).Nodup →
      ((a, c) ∈ ((s.connectNodes a b).1.connectNodes a c).1.getConnections ∧
       (a, b) ∉ ((s.connectNodes a b).1.connectNodes a c).1.getConnections)) ∧
    (∀ (s : StateManager ν ι) (id : String) (n : ν),
      (mapKeys s.connections).Nodup →
      (mapKeys (s.addNode id n).1.connections).Nodup) ∧
    (∀ (s : StateManager ν ι) (id : String),
      (mapKeys s.connections).Nodup →
      (mapKeys (s.removeNode id).1.connections).Nodup) ∧
    (∀ (s : StateManager ν ι) (f t : String),
      (mapKeys s.connections).Nodup →
      (mapKeys (s.connectNodes f t).1.connections).Nodup) ∧
    (∀ (s : StateManager ν ι) (f : String),
      (mapKeys s.connections).Nodup →
      (mapKeys (s.disconnectNodes f).1.connections).Nodup) ∧
    (∀ (s : StateManager ν ι) (it : ι),
      (mapKeys s.connections).Nodup →
      (mapKeys (s.selectItem it).1.connections).Nodup) := by
  refine ⟨?_, ?_, ?_, ?_, ?_, ?_⟩
  · intro s a b c hbc hnd
    have hnd₂ : (mapKeys (mapSet (mapSet s.connections a b) a c)).Nodup :=
      keys_mapSet_nodup _ a c (keys_mapSet_nodup _ a b hnd)
    constructor
    · exact mem_of_mapGet_eq_some (mapGet_mapSet_self (mapSet s.connections a b) a c)
    · intro hmem
      have h₁ : mapGet (mapSet (mapSet s.connections a b) a c) a = some b :=
        mapGet_eq_some_of_mem hnd₂ hmem
      rw [mapGet_mapSet_self] at h₁
      injection h₁ with h₂
      exact hbc h₂.symm
  · intro s id n hnd
    exact hnd
  · intro s id hnd
    exact List.Nodup.sublist
      ((removeConnectionsOf_sublist id s.connections).map Prod.fst) hnd
  · intro s f t hnd
    exact keys_mapSet_nodup s.connections f t hnd
  · intro s f hnd
    exact keys_mapDelete_nodup s.connections f hnd
  · intro s it hnd
    exact hnd

/-- Witness for C5, at the empty store with `a = "a"`, `b = "b"`,
`c = "c"`. -/
theorem edge_map_single_valued_witness :
    ("b" : String) ≠ "c" ∧
    (mapKeys emptyState.connections).Nodup ∧
    (("a", "c") ∈
        ((emptyState.connectNodes "a" "b").1.connectNodes "a" "c").1.getConnections ∧
     ("a", "b") ∉
        ((emptyState.connectNodes "a" "b").1.connectNodes "a" "c").1.getConnections) := by
  have hbc : ("b" : String) ≠ "c" := by decide
  have hnd : (mapKeys emptyState.connections).Nodup := by
    simp [emptyState, mapKeys]
  exact ⟨hbc, hnd, edge_map_single_valued.1 emptyState "a" "b" "c" hbc hnd⟩

/-- C6: after `removeNode(x)` the listed connections contain no pair in
which `x` appears as source or as destination. -/
theorem removeNode_cascades_edges {ν ι : Type} (s : StateManager ν ι)
    (x : String) (e : String × String)
    (he : e ∈ (s.removeNode x).1.getConnections) :
    e.1 ≠ x ∧ e.2 ≠ x := by
  have he₂ : e ∈ StateManager.removeConnectionsOf x s.connections := he
  exact (mem_removeConnectionsOf he₂).2

/-- Witness for C6, at the concrete store `c6State` (edges `a → b` and
`x → b`): removing `"x"` leaves `(a, b)`, which touches `"x"` on neither
side. -/
theorem removeNode_cascades_edges_witness :
    ("a", "b") ∈ (c6State.removeNode "x").1.getConnections ∧
    (("a", "b") : String × String).1 ≠ "x" ∧
    (("a", "b") : String × String).2 ≠ "x" := by
  have hmem : ("a", "b") ∈ (c6State.removeNode "x").1.getConnections := by
    show ("a", "b") ∈ StateManager.removeConnectionsOf "x" c6State.connections
    simp [c6State, StateManager.removeConnectionsOf]
  exact ⟨hmem, removeNode_cascades_edges c6State "x" ("a", "b") hmem⟩

/-- C8: `InvertTool.process` is a pure per-pixel map — applying it twice
returns the buffer exactly (channel-wise) on every valid RGBA buffer; a
single application keeps the dimensions and maps every pixel
`(r, g, b, a)` to `(255 − r, 255 − g, 255 − b, a)`. -/
theorem invert_self_inverse (img : ImageDataM) (hv : img.Valid) :
    InvertTool.process (InvertTool.process img) = img ∧
    (InvertTool.process img).width = img.width ∧
    (InvertTool.process img).height = img.height ∧
    (InvertTool.process img).data.length = img.data.length ∧
    (∀ i, (InvertTool.process img).data.get? i =
      (img.data.get? i).map fun p =>
        RGBA.mk (255 - p.r) (255 - p.g) (255 - p.b) p.a) := by
  obtain ⟨w, h, data⟩ := img
  have hvd : ∀ p ∈ data, p.Valid := hv
  refine ⟨?_, rfl, rfl, by simp [InvertTool.process], ?_⟩
  · simp only [InvertTool.process, List.map_map, ImageDataM.mk.injEq,
      true_and]
    have hid : ∀ p ∈ data,
        (RGBA.mk (255 - (255 - p.r)) (255 - (255 - p.g))
          (255 - (255 - p.b)) p.a) = p := by
      intro p hp
      obtain ⟨hr, hg, hb, ha⟩ := hvd p hp
      obtain ⟨r, g, b, a⟩ := p
      simp at hr hg hb
      simp [Nat.sub_sub_self hr, Nat.sub_sub_self hg, Nat.sub_sub_self hb]
    calc data.map ((fun p => RGBA.mk (255 - p.r) (255 - p.g) (255 - p.b) p.a)
            ∘ (fun p => RGBA.mk (255 - p.r) (255 - p.g) (255 - p.b) p.a))
        = data.map id := List.map_congr_left (fun p hp => hid p hp)
      _ = data := List.map_id data
  · intro i
    simp [InvertTool.process]

/-- Witness for C8, at the 2×1 scenario image from the spec; the single
application also produces exactly the pixel values the spec's scenario
expects. -/
theorem invert_self_inverse_witness :
    scenarioImage.Valid ∧
    InvertTool.process (InvertTool.process scenarioImage) = scenarioImage ∧
    InvertTool.process scenarioImage =
      ⟨2, 1, [⟨245, 235, 225, 255⟩, ⟨55, 155, 205, 255⟩]⟩ := by
  have hv : scenarioImage.Valid := by decide
  exact ⟨hv, (invert_self_inverse scenarioImage hv).1, by decide⟩

/-- C4: in a resolved chain `[t1, T, t3]` where `T`'s `process` throws,
`render()` does not raise: the exception is caught inside the per-tool
loop, the pixel buffer from before `T` is carried forward unchanged to
`t3`, and `t3` still executes — the composite is exactly that of the
chain `[t1, t3]`. -/
theorem render_partial_failure_isolation {β γ : Type} (read : γ → β)
    (put : β → γ → γ) (t1 t3 T : ToolM β γ) (hhas : T.hasProcess = true)
    (hthrow : ∀ b c, T.process b c = ProcOutcome.thrown c)
    (buf : β) (surface : γ) :
    renderComposite read put [t1, T, t3] buf surface =
      renderComposite read put [t1, t3] buf surface := by
  have hmid : ∀ (l : List (ToolM β γ)) (b : β) (c : γ),
      runToolChain read put (T :: l) b c = runToolChain read put l b c := by
    intro l b c
    simp only [runToolChain, hhas, if_true, hthrow b c]
  have hchain : runToolChain read put [t1, T, t3] buf surface
      = runToolChain read put [t1, t3] buf surface := by
    by_cases h1 : t1.hasProcess
    · cases hout : t1.process buf surface with
      | thrown s₂ =>
        simp only [runToolChain, h1, if_true, hout]
        exact hmid [t3] buf s₂
      | ok r s₂ =>
        cases r with
        | none =>
          simp only [runToolChain, h1, if_true, hout]
          exact hmid [t3] (read s₂) s₂
        | some rb =>
          simp only [runToolChain, h1, if_true, hout, List.isEmpty_cons,
            Bool.false_eq_true, if_false]
          exact hmid [t3] rb (put rb s₂)
    · simp only [runToolChain, h1, if_false]
      exact hmid [t3] buf surface
  unfold renderComposite
  rw [hchain]

/-- Witness for C4, over `ℕ` buffers with identity surface operations:
the chain `[incTool, throwingTool, incTool]` composites exactly like
`[incTool, incTool]`. -/
theorem render_partial_failure_isolation_witness :
    (throwingTool ℕ ℕ).hasProcess = true ∧
    (∀ (b c : ℕ), (throwingTool ℕ ℕ).process b c = ProcOutcome.thrown c) ∧
    renderComposite id (fun b _ => b) [incTool, throwingTool ℕ ℕ, incTool]
        5 7 =
      renderComposite id (fun b _ => b) [incTool, incTool] 5 7 :=
  ⟨rfl, fun _ _ => rfl,
    render_partial_failure_isolation id (fun b _ => b) incTool incTool
      (throwingTool ℕ ℕ) rfl (fun _ _ => rfl) 5 7⟩

/-- C1: the resolved tool order depends on the connection graph, not on
the order tools were registered: permuted tool registries (with
duplicate-free host ids) resolve identically, and on the chain
`work → toolA → toolB → viewer` the resolved order is `[toolA, toolB]`
whether `toolB` is registered before `toolA` or after. -/
theorem toolOrder_graph_not_registration {τ ν ι : Type} :
    (∀ (s : StateManager ν ι) (v : String) (tm tm₂ : List (String × τ)),
      tm.Perm tm₂ → (mapKeys tm).Nodup →
      (RenderPipeline.mk v s tm).getToolsInOrder =
        (RenderPipeline.mk v s tm₂).getToolsInOrder) ∧
    (∀ (ta tb : τ),
      ((((RenderPipeline.mk "viewer" (chainState ν ι) []).addTool tb
          "toolB").addTool ta "toolA").getToolsInOrder = [ta, tb] ∧
       (((RenderPipeline.mk "viewer" (chainState ν ι) []).addTool ta
          "toolA").addTool tb "toolB").getToolsInOrder = [ta, tb])) := by
  constructor
  · intro s v tm tm₂ hperm hnd
    show walk (buildParents s.getConnections) tm v [] []
        = walk (buildParents s.getConnections) tm₂ v [] []
    exact walk_congr _ tm tm₂ (mapGet_perm hperm hnd) v [] []
  · intro ta tb
    constructor <;>
      simp [RenderPipeline.getToolsInOrder, RenderPipeline.addTool,
        chainState, StateManager.connectNodes, StateManager.getConnections,
        buildParents, mapSet, mapGet, walk]

/-- Witness for C1, at the chain store and two permuted two-tool
registries. -/
theorem toolOrder_graph_not_registration_witness :
    ([("x", 1), ("y", 2)] : List (String × ℕ)).Perm [("y", 2), ("x", 1)] ∧
    (mapKeys ([("x", 1), ("y", 2)] : List (String × ℕ))).Nodup ∧
    (RenderPipeline.mk "viewer" (chainState ℕ ℕ)
        [("x", 1), ("y", 2)]).getToolsInOrder =
      (RenderPipeline.mk "viewer" (chainState ℕ ℕ)
        [("y", 2), ("x", 1)]).getToolsInOrder := by
  have hperm : ([("x", 1), ("y", 2)] : List (String × ℕ)).Perm
      [("y", 2), ("x", 1)] := List.Perm.swap _ _ _
  have hnd : (mapKeys ([("x", 1), ("y", 2)] : List (String × ℕ))).Nodup := by
    simp [mapKeys]
  exact ⟨hperm, hnd,
    toolOrder_graph_not_registration.1 (chainState ℕ ℕ) "viewer" _ _
      hperm hnd⟩

/-- C10: fan-in is silently collapsed — the destination→source lookup
built from the edge list resolves each destination to the source of the
last-enumerated edge into it, and on the fan-in graph
`work → branchA → viewer`, `branchB → viewer` (the `branchB` edge
enumerated last) the resolved order is `[tb]`: the registered tool on
the `branchA` branch is omitted, with no error and no event. -/
theorem fanIn_collapses_to_last_edge {τ ν ι : Type} :
    (∀ (conns : List (String × String)) (t : String),
      mapGet (buildParents conns) t =
        (conns.reverse.find? fun e => decide (e.2 = t)).map Prod.fst) ∧
    (∀ (ta tb : τ),
      (RenderPipeline.mk "viewer" (fanInState ν ι)
          [("branchA", ta), ("branchB", tb)]).getToolsInOrder = [tb]) := by
  constructor
  · intro conns t
    rw [buildParents, mapGet_foldl_mapSet]
    cases h : conns.reverse.find? fun e => decide (e.2 = t) with
    | some e => simp [h]
    | none => simp [h, mapGet]
  · intro ta tb
    simp [RenderPipeline.getToolsInOrder, fanInState,
      StateManager.connectNodes, StateManager.getConnections, buildParents,
      mapSet, mapGet, walk]

end NodalPortfolio
